import Mathlib

/-!
Verification development for the `syspac` package-discovery and
change-detection core (`src/package.rs`, `src/git.rs`, `src/pkgbuild.rs`).

The Rust code is shallowly embedded:
* the filesystem below the repository root is a tree of `Entry` values;
* the git repository state consulted by `git.rs` (HEAD, parents, revparse,
  tree diffs) is a `World` record of oracles, one field per `git2` call;
* fallible Rust calls returning `Result` become `Except SysError`;
* a Rust panic (out-of-range slice) is modelled as `Option.none`;
* Rust `String` sorting (`sort`, `sort_by` on names) is modelled with
  `List.insertionSort` over the lexicographic order on `String`, which
  agrees with Rust byte-wise ordering on UTF-8 data.
-/

/-- Error taxonomy of the embedded fallible calls (anyhow contexts in the
source collapse to constructors here). -/
inductive SysError where
  | repoOpenFailed
  | submodulesFailed
  | readDirFailed
  | dirEntryFailed
  | revparseFailed
  | peelFailed
  | headFailed
  | noParent
  | diffFailed
deriving DecidableEq

/-- Models Rust `str::starts_with` (byte-prefix test, equivalently a
character-prefix test on valid UTF-8). -/
def strStartsWith (s p : String) : Bool := p.data.isPrefixOf s.data

/-- Lexicographic order on strings as character lists; this is the order
Rust `String` comparison (byte-wise, which agrees with code-point order on
UTF-8) induces, and it agrees with `String` instance order
(`String.le_iff_toList_le`). -/
def nameLe (a b : String) : Prop := a.data ≤ b.data

instance : DecidableRel nameLe := fun a b => inferInstanceAs (Decidable (a.data ≤ b.data))

instance : IsTotal String nameLe := ⟨fun a b => le_total a.data b.data⟩

instance : IsTrans String nameLe := ⟨fun _ _ _ h h2 => le_trans h h2⟩

instance : IsAntisymm String nameLe :=
  ⟨fun a b h h2 => by cases a; cases b; exact congrArg String.mk (le_antisymm h h2)⟩

/-- Package record from `src/package.rs` (struct `Package`). -/
structure Package where
  name : String
  path : String
  pkgbuild_path : String
  is_submodule : Bool
deriving DecidableEq

/-- A filesystem entry below the repository root: a plain file, or a
directory with a name, its contents, and whether `fs::read_dir` on it
succeeds (`readable`). `exists` checks consult `contents` even for an
unreadable directory, as stat and listing are separate permissions. -/
inductive Entry where
  | file (name : String)
  | dir (name : String) (contents : List Entry) (readable : Bool)

/-- Name of an entry. -/
def Entry.name : Entry → String
  | Entry.file n => n
  | Entry.dir n _ _ => n

/-- Whether an entry (file or directory) with the given name exists in a
directory listing; models `path.join(name).exists()`. -/
def hasEntry (es : List Entry) (n : String) : Bool :=
  es.any (fun e => e.name == n)

/-- Existence of a (possibly nested) path of segments in a tree; models
`Path::exists` on a joined relative path. -/
def existsAt : List String → List Entry → Bool
  | [], _ => true
  | [n], es => hasEntry es n
  | n :: m :: rest, es =>
    match es.find? (fun e => e.name == n) with
    | some (Entry.dir _ cs _) => existsAt (m :: rest) cs
    | _ => false

/-- Models `is_submodule_dir` from `src/package.rs`: the directory contains
a `.git` file or directory. For a plain file this is `false` (a file has
no children). -/
def is_submodule_dir : Entry → Bool
  | Entry.file _ => false
  | Entry.dir _ cs _ => hasEntry cs ".git"

/-- Hidden-name and fixed-exclusion filter applied to direct children of
the repository root in `find_direct_packages` (`src/package.rs`). -/
def excludedName (n : String) : Bool :=
  strStartsWith n "." || n == "target" || n == "node_modules" ||
    n == "build-container" || n == "repo"

/-- Package emitted for a direct child directory with a PKGBUILD. -/
def mkChildPackage (repoPath n : String) : Package :=
  ⟨n, n, repoPath ++ "/" ++ n ++ "/PKGBUILD", false⟩

/-- Package emitted for a grandchild directory with a PKGBUILD. -/
def mkGrandchildPackage (repoPath n m : String) : Package :=
  ⟨m, n ++ "/" ++ m, repoPath ++ "/" ++ n ++ "/" ++ m ++ "/PKGBUILD", false⟩

/-- Body of the inner (grandchild) loop of `find_direct_packages`
(`src/package.rs` lines 129-156): a grandchild is emitted when it is a
directory, not a submodule, and holds a PKGBUILD; `n` is the parent child
directory name. -/
def processSubEntry (repoPath n : String) : Entry → List Package
  | Entry.file _ => []
  | Entry.dir m g _ =>
    if hasEntry g ".git" then []
    else if hasEntry g "PKGBUILD" then [mkGrandchildPackage repoPath n m]
    else []

/-- Body of the outer loop of `find_direct_packages` (`src/package.rs`
lines 81-160) for one successfully read root entry. -/
def processTopEntry (repoPath : String) : Entry → List Package
  | Entry.file _ => []
  | Entry.dir n cs r =>
    if hasEntry cs ".git" then []
    else if excludedName n then []
    else if hasEntry cs "PKGBUILD" then [mkChildPackage repoPath n]
    else if r then cs.flatMap (processSubEntry repoPath n)
    else []

/-- Iteration of `find_direct_packages` over the root `read_dir` result;
an individual entry that fails to read (`entry?` in the source) is a
`none` element and aborts the whole call. -/
def direct_loop (repoPath : String) : List (Option Entry) → List Package →
    Except SysError (List Package)
  | [], acc => Except.ok acc
  | none :: _, _ => Except.error SysError.dirEntryFailed
  | some e :: rest, acc => direct_loop repoPath rest (acc ++ processTopEntry repoPath e)

/-- Models `find_direct_packages` (`src/package.rs`): `rootRead` is the
result of `fs::read_dir(repo_path)` (`none` when the root listing fails). -/
def find_direct_packages (repoPath : String)
    (rootRead : Option (List (Option Entry))) : Except SysError (List Package) :=
  match rootRead with
  | none => Except.error SysError.readDirFailed
  | some entries => direct_loop repoPath entries []

/-- A git submodule as consulted by `find_submodule_packages`: declared
name (possibly absent) and working-tree path segments. -/
structure GitSubmodule where
  name : Option String
  path : List String
deriving DecidableEq

/-- Forward-slash rendering of path segments. -/
def pathString (segs : List String) : String :=
  String.intercalate "/" segs

/-- Models `find_submodule_packages` (`src/package.rs`): `subs` is the
result of `repo.submodules()` (`none` when it fails); `fs` is the
filesystem tree used for the PKGBUILD existence check. -/
def find_submodule_packages (repoPath : String) (subs : Option (List GitSubmodule))
    (fs : List Entry) : Except SysError (List Package) :=
  match subs with
  | none => Except.error SysError.submodulesFailed
  | some l =>
    Except.ok (l.filterMap (fun sm =>
      if existsAt (sm.path ++ ["PKGBUILD"]) fs then
        some ⟨sm.name.getD (sm.path.getLastD "unknown"),
              pathString sm.path,
              repoPath ++ "/" ++ pathString (sm.path ++ ["PKGBUILD"]),
              true⟩
      else none))

/-- One entry of a tree-to-tree diff (`git2::DiffDelta`): paths of the
new-side and old-side files, when present. -/
structure Delta where
  newFile : Option String
  oldFile : Option String
deriving DecidableEq

/-- State of the repository and filesystem consulted by the embedded
functions; one field per distinct `git2`/`fs` call in the source. -/
structure World where
  /-- Whether `Repository::open(repo_path)` succeeds. -/
  openOk : Bool
  /-- Result of `repo.submodules()` (`none` = failure). -/
  submodules : Option (List GitSubmodule)
  /-- The filesystem tree below the repository root (for `exists` checks). -/
  fs : List Entry
  /-- Result of `fs::read_dir(repo_path)`: `none` = failure, a `none`
  element = an individual `DirEntry` that fails to read. -/
  rootRead : Option (List (Option Entry))
  /-- Result of `repo.head()` followed by `peel_to_commit` (commit id). -/
  headCommit : Option String
  /-- First parent of a commit: `none` when `parent_count == 0` or
  `parent_id(0)` fails. -/
  parent : String → Option String
  /-- Result of `repo.revparse_single` on a ref string (object id). -/
  revparse : String → Option String
  /-- Result of `Object::peel_to_commit` on an object id. -/
  peelObj : String → Option String
  /-- Deltas of `diff_tree_to_tree` between two commits; `none` when
  `find_commit`, `tree`, or the diff itself fails. -/
  diffTrees : String → String → Option (List Delta)

/-- Comparison used to sort packages by name (`packages.sort_by` on
`name` in `find_all_packages`). -/
def pkgLe (a b : Package) : Prop := nameLe a.name b.name

instance : DecidableRel pkgLe := fun a b => inferInstanceAs (Decidable (nameLe a.name b.name))

instance : IsTotal Package pkgLe := ⟨fun a b => le_total a.name.data b.name.data⟩

instance : IsTrans Package pkgLe := ⟨fun _ _ _ h h2 => le_trans h h2⟩

/-- Models `find_all_packages` (`src/package.rs`): open the repository,
collect submodule packages, then direct packages, and sort by name. -/
def find_all_packages (repoPath : String) (w : World) : Except SysError (List Package) :=
  if w.openOk then
    match find_submodule_packages repoPath w.submodules w.fs with
    | Except.error e => Except.error e
    | Except.ok subPkgs =>
      match find_direct_packages repoPath w.rootRead with
      | Except.error e => Except.error e
      | Except.ok dirPkgs =>
        Except.ok (List.insertionSort pkgLe (subPkgs ++ dirPkgs))
  else Except.error SysError.repoOpenFailed

/-- Candidate paths collected for one delta (`src/git.rs` lines 90-98):
the new-side path, then the old-side path, each when present. -/
def candidatePaths (d : Delta) : List String :=
  (match d.newFile with
   | some p => [p]
   | none => []) ++
  (match d.oldFile with
   | some p => [p]
   | none => [])

/-- Models `HashSet::insert` on the accumulated changed-name set. -/
def insertSet (acc : List String) (n : String) : List String :=
  if n ∈ acc then acc else n :: acc

/-- Inner package loop of `find_changed_packages_between_commits`
(`src/git.rs` lines 102-107): scan packages in order, insert the name of
the first whose `path` is a string prefix of the candidate path, stop. -/
def insertFirstOwner (packages : List Package) (p : String) (acc : List String) : List String :=
  match packages with
  | [] => acc
  | pkg :: rest =>
    if strStartsWith p pkg.path then insertSet acc pkg.name
    else insertFirstOwner rest p acc

/-- Accumulation over all deltas and their candidate paths
(`src/git.rs` lines 88-109). -/
def collectDeltas (packages : List Package) (deltas : List Delta) : List String :=
  deltas.foldl
    (fun acc delta => (candidatePaths delta).foldl (fun a p => insertFirstOwner packages p a) acc)
    []

/-- Models `find_changed_packages_between_commits` (`src/git.rs`):
diff the two trees, attribute candidate paths to first-owning packages,
then sort the accumulated set. -/
def find_changed_packages_between_commits (w : World) (base_oid head_oid : String)
    (packages : List Package) : Except SysError (List String) :=
  match w.diffTrees base_oid head_oid with
  | none => Except.error SysError.diffFailed
  | some deltas =>
    Except.ok (List.insertionSort nameLe (collectDeltas packages deltas))

/-- Models `get_head_parent` (`src/git.rs`): peel HEAD to a commit, then
take its first parent; no parent (first commit) is an error. -/
def get_head_parent (w : World) : Except SysError String :=
  match w.headCommit with
  | none => Except.error SysError.headFailed
  | some c =>
    match w.parent c with
    | none => Except.error SysError.noParent
    | some p => Except.ok p

/-- Lines 30-52 of `detect_changed_packages` once a base ref string is in
hand: revparse it, peel to a commit, read HEAD, and diff. -/
def detect_with_base (w : World) (base_ref : String) (all_packages : List Package) :
    Except SysError (List String) :=
  match w.revparse base_ref with
  | none => Except.error SysError.revparseFailed
  | some obj =>
    match w.peelObj obj with
    | none => Except.error SysError.peelFailed
    | some base_commit =>
      match w.headCommit with
      | none => Except.error SysError.headFailed
      | some head_commit =>
        find_changed_packages_between_commits w base_commit head_commit all_packages

/-- Models `detect_changed_packages` (`src/git.rs`): open the repository,
discover all packages, resolve the base (explicit ref, or HEAD parent with
a full-package fallback), and diff. -/
def detect_changed_packages (repoPath : String) (w : World) (baseRefArg : Option String) :
    Except SysError (List String) :=
  if w.openOk then
    match find_all_packages repoPath w with
    | Except.error e => Except.error e
    | Except.ok all_packages =>
      match baseRefArg with
      | some r => detect_with_base w r all_packages
      | none =>
        match get_head_parent w with
        | Except.ok oid => detect_with_base w oid all_packages
        | Except.error _ => Except.ok (all_packages.map (fun p => p.name))
  else Except.error SysError.repoOpenFailed

/-- Double-quote character. -/
def dquote : Char := Char.ofNat 34

/-- Single-quote character. -/
def squote : Char := Char.ofNat 39

/-- Models Rust `str::trim` on a list of characters. -/
def trimChars (l : List Char) : List Char :=
  ((l.dropWhile Char.isWhitespace).reverse.dropWhile Char.isWhitespace).reverse

/-- Models `extract_value` (`src/pkgbuild.rs` lines 104-115) at character
level. The slice `value[1..value.len() - 1]` is out of range when the
trimmed value is a single quote character; that panic is `none`. -/
def extract_value (line pre : List Char) : Option (List Char) :=
  let value := trimChars (line.drop pre.length)
  if (value.head? = some dquote ∧ value.getLast? = some dquote) ∨
      (value.head? = some squote ∧ value.getLast? = some squote) then
    if 2 ≤ value.length then some ((value.drop 1).dropLast)
    else none
  else some value

/-- Modelled from the spec (§4.3, §8): the fallback parser strips exactly
one matching pair of surrounding quote characters, when such a pair (two
characters, both double quotes or both single quotes) is present, from an
already-trimmed value; otherwise the trimmed value is kept as is. -/
def spec_unquote (v : List Char) : List Char :=
  if 2 ≤ v.length ∧
      ((v.head? = some dquote ∧ v.getLast? = some dquote) ∨
        (v.head? = some squote ∧ v.getLast? = some squote)) then
    (v.drop 1).dropLast
  else v

/-- The first package of the list whose `path` is a string prefix of the
candidate path: the package at which the inner loop of
`find_changed_packages_between_commits` breaks. -/
def firstOwner (packages : List Package) (p : String) : Option Package :=
  packages.find? (fun q => strStartsWith p q.path)

/-- A fully readable root listing built from a tree: `read_dir` succeeds
and every entry reads. -/
def rootOf (es : List Entry) : Option (List (Option Entry)) :=
  some (es.map some)

/-- Replaces directory contents below a given depth with the empty
listing, leaving names, readability and everything above untouched. Used
to state that discovery never examines deeper levels. -/
def pruneEntry : Nat → Entry → Entry
  | _, Entry.file n => Entry.file n
  | 0, Entry.dir n _ r => Entry.dir n [] r
  | Nat.succ k, Entry.dir n cs r => Entry.dir n (cs.map (pruneEntry k)) r

/-- Modelled from the spec (§4.1 step 2): the conditions under which a
grandchild directory of root child `n` is emitted — it is a directory,
not a submodule, and contains a recipe file. -/
def specSubEmits (repoPath n : String) : Entry → Package → Prop
  | Entry.file _, _ => False
  | Entry.dir m g _, p =>
    hasEntry g ".git" = false ∧ hasEntry g "PKGBUILD" = true ∧
      p = mkGrandchildPackage repoPath n m

/-- Modelled from the spec (§4.1 step 2): the conditions under which the
direct-directory walk emits a package for one root entry, written out from
the description in the spec. -/
def specTopEmits (repoPath : String) : Entry → Package → Prop
  | Entry.file _, _ => False
  | Entry.dir n cs r, p =>
    hasEntry cs ".git" = false ∧ excludedName n = false ∧
    ((hasEntry cs "PKGBUILD" = true ∧ p = mkChildPackage repoPath n) ∨
      (hasEntry cs "PKGBUILD" = false ∧ r = true ∧
        ∃ sub ∈ cs, specSubEmits repoPath n sub p))

/-- Modelled from the spec (§4.1 step 2, §8): a direct package is emitted
for a direct child with a recipe, else for a non-submodule grandchild with
a recipe — never deeper. -/
def specDirectPackage (repoPath : String) (es : List Entry) (p : Package) : Prop :=
  ∃ e ∈ es, specTopEmits repoPath e p

/-- A filesystem tree in which two distinct grandchild directories are
both named `foo` and both hold a PKGBUILD, so discovery yields two
packages with the same name. -/
def dupNameFs : List Entry :=
  [Entry.dir "alpha" [Entry.dir "foo" [Entry.file "PKGBUILD"] true] true,
   Entry.dir "beta" [Entry.dir "foo" [Entry.file "PKGBUILD"] true] true]

/-- World for the duplicate-name full-rebuild counterexample: the
repository opens, discovery succeeds on `dupNameFs`, and HEAD has no
parent, so change detection takes the full-rebuild return path. -/
def dupNameWorld : World :=
  ⟨true, some [], dupNameFs, rootOf dupNameFs, some "h",
   fun _ => none, fun _ => none, fun _ => none, fun _ _ => none⟩

/-- World in which the repository opens and submodule enumeration works
but the root directory listing cannot be read. -/
def rootUnreadableWorld : World :=
  ⟨true, some [], [], none, some "h",
   fun _ => none, fun _ => none, fun _ => none, fun _ _ => none⟩

/-- World in which the repository opens, discovery succeeds on an empty
tree, and reading (peeling) HEAD fails. -/
def headFailWorld : World :=
  ⟨true, some [], [], some [], none,
   fun _ => none, fun _ => none, fun _ => none, fun _ _ => none⟩

/-- World with one package directory `foo` and one delta renaming a file
from inside `bar` to inside `foo`, HEAD resolving with parent `p0`. -/
def renameWorld : World :=
  ⟨true, some [],
   [Entry.dir "bar" [Entry.file "PKGBUILD"] true,
    Entry.dir "foo" [Entry.file "PKGBUILD"] true],
   rootOf [Entry.dir "bar" [Entry.file "PKGBUILD"] true,
           Entry.dir "foo" [Entry.file "PKGBUILD"] true],
   some "h", fun _ => some "p0", fun s => some s, fun s => some s,
   fun _ _ => some [⟨some "foo/a.c", some "bar/a.c"⟩]⟩

/-- World of a root-commit repository with a single package directory
`bar`: HEAD resolves but has no parent. -/
def rootCommitWorld : World :=
  ⟨true, some [],
   [Entry.dir "bar" [Entry.file "PKGBUILD"] true],
   rootOf [Entry.dir "bar" [Entry.file "PKGBUILD"] true],
   some "h", fun _ => none, fun _ => none, fun _ => none, fun _ _ => none⟩

/-- Two packages whose paths are nested (`pkgs` owns everything that
`pkgs/x` owns), sorted by name. -/
def tiePackages : List Package :=
  [⟨"a", "pkgs", "/r/pkgs/PKGBUILD", false⟩,
   ⟨"b", "pkgs/x", "/r/pkgs/x/PKGBUILD", false⟩]

/-- World whose diff has one delta below both `pkgs` and `pkgs/x`. -/
def tieWorld : World :=
  ⟨true, some [], [], some [], some "h",
   fun _ => some "p0", fun s => some s, fun s => some s,
   fun _ _ => some [⟨some "pkgs/x/f.c", none⟩]⟩

/-- A filesystem tree whose only recipe file sits inside a
third-level directory (`a/b/c/PKGBUILD`). -/
def deepFs : List Entry :=
  [Entry.dir "a" [Entry.dir "b" [Entry.dir "c" [Entry.file "PKGBUILD"] true] true] true]

/-- A filesystem tree whose recipe sits in a hidden-named grandchild
directory. -/
def hiddenFs : List Entry :=
  [Entry.dir "pkgs" [Entry.dir ".hidden" [Entry.file "PKGBUILD"] true] true]

/-- World in which revparse succeeds on any ref but peeling any object or
reading HEAD fails; discovery succeeds on an empty tree. -/
def peelFailWorld : World :=
  ⟨true, some [], [], some [], none,
   fun _ => none, fun s => some s, fun _ => none, fun _ _ => none⟩

/-! ### Helper lemmas about the changed-name accumulation -/

theorem mem_insertSet {acc : List String} {m n : String} :
    n ∈ insertSet acc m ↔ n = m ∨ n ∈ acc := by
  unfold insertSet
  split
  · rename_i hm
    constructor
    · exact Or.inr
    · rintro (rfl | hn)
      · exact hm
      · exact hn
  · simp [List.mem_cons]

theorem nodup_insertSet {acc : List String} {m : String} (h : acc.Nodup) :
    (insertSet acc m).Nodup := by
  unfold insertSet
  split
  · exact h
  · rename_i hm
    exact List.nodup_cons.mpr ⟨hm, h⟩

theorem insertFirstOwner_eq (packages : List Package) (p : String) (acc : List String) :
    insertFirstOwner packages p acc =
      match firstOwner packages p with
      | some pkg => insertSet acc pkg.name
      | none => acc := by
  induction packages with
  | nil => rfl
  | cons q rest ih =>
    by_cases h : strStartsWith p q.path = true
    · simp [insertFirstOwner, firstOwner, h]
    · simp only [insertFirstOwner, firstOwner, h]
      rw [List.find?_cons_of_neg _ (by simpa using h)]
      simpa [firstOwner] using ih

theorem mem_insertFirstOwner {packages : List Package} {p : String} {acc : List String}
    {n : String} :
    n ∈ insertFirstOwner packages p acc ↔
      n ∈ acc ∨ ∃ pkg, firstOwner packages p = some pkg ∧ pkg.name = n := by
  rw [insertFirstOwner_eq]
  cases hfo : firstOwner packages p with
  | none => simp
  | some pkg => simp [mem_insertSet, eq_comm, or_comm]

theorem nodup_insertFirstOwner {packages : List Package} {p : String} {acc : List String}
    (h : acc.Nodup) : (insertFirstOwner packages p acc).Nodup := by
  rw [insertFirstOwner_eq]
  cases firstOwner packages p with
  | none => exact h
  | some pkg => exact nodup_insertSet h

theorem mem_foldl_insertFirstOwner (packages : List Package) (paths : List String)
    (acc : List String) (n : String) :
    (n ∈ paths.foldl (fun a p => insertFirstOwner packages p a) acc) ↔
      n ∈ acc ∨ ∃ p ∈ paths, ∃ pkg, firstOwner packages p = some pkg ∧ pkg.name = n := by
  induction paths generalizing acc with
  | nil => simp
  | cons p ps ih =>
    rw [List.foldl_cons, ih]
    rw [mem_insertFirstOwner]
    constructor
    · rintro ((hn | ⟨pkg, hfo, hpn⟩) | ⟨q, hq, pkg, hfo, hpn⟩)
      · exact Or.inl hn
      · exact Or.inr ⟨p, List.mem_cons_self p ps, pkg, hfo, hpn⟩
      · exact Or.inr ⟨q, List.mem_cons_of_mem p hq, pkg, hfo, hpn⟩
    · rintro (hn | ⟨q, hq, pkg, hfo, hpn⟩)
      · exact Or.inl (Or.inl hn)
      · rcases List.mem_cons.mp hq with rfl | hq2
        · exact Or.inl (Or.inr ⟨pkg, hfo, hpn⟩)
        · exact Or.inr ⟨q, hq2, pkg, hfo, hpn⟩

theorem nodup_foldl_insertFirstOwner (packages : List Package) (paths : List String)
    (acc : List String) (h : acc.Nodup) :
    (paths.foldl (fun a p => insertFirstOwner packages p a) acc).Nodup := by
  induction paths generalizing acc with
  | nil => exact h
  | cons p ps ih =>
    rw [List.foldl_cons]
    exact ih _ (nodup_insertFirstOwner h)

theorem mem_foldl_deltas (packages : List Package) (deltas : List Delta)
    (acc : List String) (n : String) :
    (n ∈ deltas.foldl
        (fun acc delta =>
          (candidatePaths delta).foldl (fun a p => insertFirstOwner packages p a) acc) acc) ↔
      n ∈ acc ∨ ∃ d ∈ deltas, ∃ p ∈ candidatePaths d, ∃ pkg,
        firstOwner packages p = some pkg ∧ pkg.name = n := by
  induction deltas generalizing acc with
  | nil => simp
  | cons d ds ih =>
    rw [List.foldl_cons, ih, mem_foldl_insertFirstOwner]
    constructor
    · rintro ((hn | ⟨p, hp, pkg, hfo, hpn⟩) | ⟨e, he, p, hp, pkg, hfo, hpn⟩)
      · exact Or.inl hn
      · exact Or.inr ⟨d, List.mem_cons_self d ds, p, hp, pkg, hfo, hpn⟩
      · exact Or.inr ⟨e, List.mem_cons_of_mem d he, p, hp, pkg, hfo, hpn⟩
    · rintro (hn | ⟨e, he, p, hp, pkg, hfo, hpn⟩)
      · exact Or.inl (Or.inl hn)
      · rcases List.mem_cons.mp he with rfl | he2
        · exact Or.inl (Or.inr ⟨p, hp, pkg, hfo, hpn⟩)
        · exact Or.inr ⟨e, he2, p, hp, pkg, hfo, hpn⟩

theorem mem_collectDeltas {packages : List Package} {deltas : List Delta} {n : String} :
    n ∈ collectDeltas packages deltas ↔
      ∃ d ∈ deltas, ∃ p ∈ candidatePaths d, ∃ pkg,
        firstOwner packages p = some pkg ∧ pkg.name = n := by
  simpa [collectDeltas] using mem_foldl_deltas packages deltas [] n

theorem nodup_collectDeltas (packages : List Package) (deltas : List Delta) :
    (collectDeltas packages deltas).Nodup := by
  unfold collectDeltas
  induction deltas with
  | nil => exact List.nodup_nil
  | cons d ds ih =>
    rw [List.foldl_cons]
    generalize hstart : (candidatePaths d).foldl (fun a p => insertFirstOwner packages p a) [] = start
    have hnd : start.Nodup := by
      rw [← hstart]
      exact nodup_foldl_insertFirstOwner packages _ [] List.nodup_nil
    clear hstart ih
    induction ds generalizing start with
    | nil => exact hnd
    | cons e es ih2 =>
      rw [List.foldl_cons]
      exact ih2 _ (nodup_foldl_insertFirstOwner packages _ _ hnd)

/-! ### Ordering and discovery structure lemmas -/

theorem firstOwner_cons (a : Package) (rest : List Package) (p : String) :
    firstOwner (a :: rest) p =
      if strStartsWith p a.path then some a else firstOwner rest p := by
  by_cases h : strStartsWith p a.path = true
  · simp [firstOwner, h]
  · simp [firstOwner, h]

theorem firstOwner_min_name {packages : List Package} {p : String} {pkg : Package}
    (hs : packages.Pairwise pkgLe) (h : firstOwner packages p = some pkg) :
    ∀ q ∈ packages, strStartsWith p q.path = true → nameLe pkg.name q.name := by
  induction packages with
  | nil => cases h
  | cons a rest ih =>
    rw [List.pairwise_cons] at hs
    rw [firstOwner_cons] at h
    by_cases ha : strStartsWith p a.path = true
    · rw [if_pos ha] at h
      cases h
      intro q hq hpq
      rcases List.mem_cons.mp hq with rfl | hq2
      · exact le_refl q.name.data
      · exact hs.1 q hq2
    · rw [if_neg ha] at h
      intro q hq hpq
      rcases List.mem_cons.mp hq with rfl | hq2
      · exact absurd hpq ha
      · exact ih hs.2 h q hq2 hpq

theorem firstOwner_owns {packages : List Package} {p : String} {pkg : Package}
    (h : firstOwner packages p = some pkg) :
    strStartsWith p pkg.path = true ∧ pkg ∈ packages := by
  induction packages with
  | nil => cases h
  | cons a rest ih =>
    rw [firstOwner_cons] at h
    by_cases ha : strStartsWith p a.path = true
    · rw [if_pos ha] at h
      cases h
      exact ⟨ha, List.mem_cons_self _ _⟩
    · rw [if_neg ha] at h
      rcases ih h with ⟨h1, h2⟩
      exact ⟨h1, List.mem_cons_of_mem _ h2⟩

theorem sorted_names_of_sorted {ps : List Package} (h : ps.Pairwise pkgLe) :
    (ps.map (fun p => p.name)).Sorted nameLe :=
  List.Pairwise.map _ (fun _ _ hab => hab) h

theorem find_all_packages_sorted {rp : String} {w : World} {ps : List Package}
    (h : find_all_packages rp w = Except.ok ps) : ps.Pairwise pkgLe := by
  unfold find_all_packages at h
  split at h
  · split at h
    · cases h
    · split at h
      · cases h
      · cases h
        exact List.sorted_insertionSort pkgLe _
  · cases h

theorem find_changed_ok {w : World} {base head : String} {packages : List Package}
    {l : List String}
    (h : find_changed_packages_between_commits w base head packages = Except.ok l) :
    ∃ deltas, w.diffTrees base head = some deltas ∧
      l = List.insertionSort nameLe (collectDeltas packages deltas) := by
  unfold find_changed_packages_between_commits at h
  cases hd : w.diffTrees base head with
  | none => rw [hd] at h; cases h
  | some deltas =>
    rw [hd] at h
    cases h
    exact ⟨deltas, rfl, rfl⟩

theorem changed_sorted_nodup (packages : List Package) (deltas : List Delta) :
    (List.insertionSort nameLe (collectDeltas packages deltas)).Sorted nameLe ∧
      (List.insertionSort nameLe (collectDeltas packages deltas)).Nodup :=
  ⟨List.sorted_insertionSort nameLe _,
   (List.perm_insertionSort nameLe _).nodup_iff.mpr (nodup_collectDeltas packages deltas)⟩

theorem detect_with_base_ok {w : World} {r : String} {ps : List Package} {l : List String}
    (h : detect_with_base w r ps = Except.ok l) :
    ∃ deltas base head, w.diffTrees base head = some deltas ∧
      l = List.insertionSort nameLe (collectDeltas ps deltas) := by
  unfold detect_with_base at h
  split at h
  · cases h
  · split at h
    · cases h
    · split at h
      · cases h
      · rcases find_changed_ok h with ⟨deltas, hd, hl⟩
        exact ⟨deltas, _, _, hd, hl⟩

theorem detect_ok_cases {rp : String} {w : World} {b : Option String} {l : List String}
    (h : detect_changed_packages rp w b = Except.ok l) :
    ∃ ps, find_all_packages rp w = Except.ok ps ∧
      ((b = none ∧ (∀ o, get_head_parent w ≠ Except.ok o) ∧
          l = ps.map (fun p => p.name)) ∨
        ∃ deltas, l = List.insertionSort nameLe (collectDeltas ps deltas)) := by
  unfold detect_changed_packages at h
  split at h
  · split at h
    · cases h
    · rename_i ps hps
      refine ⟨ps, hps, ?_⟩
      split at h
      · rcases detect_with_base_ok h with ⟨deltas, _, _, _, hl⟩
        exact Or.inr ⟨deltas, hl⟩
      · split at h
        · rcases detect_with_base_ok h with ⟨deltas, _, _, _, hl⟩
          exact Or.inr ⟨deltas, hl⟩
        · cases h
          rename_i e he
          refine Or.inl ⟨rfl, ?_, rfl⟩
          intro o ho
          rw [he] at ho
          cases ho
  · cases h
/-! ### Lemmas about the directory walk -/

theorem pruneEntry_name (k : Nat) (e : Entry) : (pruneEntry k e).name = e.name := by
  cases e <;> cases k <;> rfl

theorem hasEntry_map_prune (k : Nat) (cs : List Entry) (n : String) :
    hasEntry (cs.map (pruneEntry k)) n = hasEntry cs n := by
  unfold hasEntry
  rw [List.any_map]
  congr 1
  funext e
  simp [Function.comp, pruneEntry_name]

theorem processSubEntry_prune (rp n : String) (sub : Entry) :
    processSubEntry rp n (pruneEntry 1 sub) = processSubEntry rp n sub := by
  cases sub with
  | file m => rfl
  | dir m g s =>
    show processSubEntry rp n (Entry.dir m (g.map (pruneEntry 0)) s) = _
    simp only [processSubEntry, hasEntry_map_prune]

theorem processTopEntry_prune (rp : String) (e : Entry) :
    processTopEntry rp (pruneEntry 2 e) = processTopEntry rp e := by
  cases e with
  | file n => rfl
  | dir n cs r =>
    show processTopEntry rp (Entry.dir n (cs.map (pruneEntry 1)) r) = _
    simp only [processTopEntry, hasEntry_map_prune, List.flatMap_map, processSubEntry_prune]

theorem direct_loop_ok_append (rp : String) (es : List Entry) (acc : List Package) :
    direct_loop rp (es.map some) acc = Except.ok (acc ++ es.flatMap (processTopEntry rp)) := by
  induction es generalizing acc with
  | nil => simp [direct_loop]
  | cons e rest ih => simp [direct_loop, ih, List.flatMap_cons]

theorem find_direct_rootOf (rp : String) (es : List Entry) :
    find_direct_packages rp (rootOf es) = Except.ok (es.flatMap (processTopEntry rp)) := by
  simpa [find_direct_packages, rootOf] using direct_loop_ok_append rp es []

theorem mem_processSubEntry {rp n : String} {sub : Entry} {p : Package} :
    p ∈ processSubEntry rp n sub ↔ specSubEmits rp n sub p := by
  cases sub with
  | file m => simp [processSubEntry, specSubEmits]
  | dir m g s =>
    simp only [processSubEntry, specSubEmits]
    by_cases hg1 : hasEntry g ".git" = true
    · simp [hg1]
    · have hg1f : hasEntry g ".git" = false := by simpa using hg1
      by_cases hg2 : hasEntry g "PKGBUILD" = true
      · simp [hg1f, hg2]
      · simp [hg1f, hg2]

theorem mem_processTopEntry {rp : String} {e : Entry} {p : Package} :
    p ∈ processTopEntry rp e ↔ specTopEmits rp e p := by
  cases e with
  | file n => simp [processTopEntry, specTopEmits]
  | dir n cs r =>
    simp only [processTopEntry, specTopEmits]
    by_cases h1 : hasEntry cs ".git" = true
    · simp [h1]
    · have h1f : hasEntry cs ".git" = false := by simpa using h1
      by_cases h2 : excludedName n = true
      · simp [h1f, h2]
      · have h2f : excludedName n = false := by simpa using h2
        by_cases h3 : hasEntry cs "PKGBUILD" = true
        · simp [h1f, h2f, h3]
        · have h3f : hasEntry cs "PKGBUILD" = false := by simpa using h3
          by_cases hr : r = true
          · subst hr
            simp [h1f, h2f, h3f, List.mem_flatMap, mem_processSubEntry]
          · have hrf : r = false := by simpa using hr
            subst hrf
            simp [h1f, h2f, h3f]

theorem mem_find_direct {rp : String} {es : List Entry} {p : Package} :
    p ∈ es.flatMap (processTopEntry rp) ↔ specDirectPackage rp es p := by
  simp only [List.mem_flatMap, specDirectPackage, mem_processTopEntry]

theorem direct_loop_error_iff (rp : String) (es : List (Option Entry)) (acc : List Package) :
    (∃ e, direct_loop rp es acc = Except.error e) ↔ none ∈ es := by
  induction es generalizing acc with
  | nil => simp [direct_loop]
  | cons oe rest ih =>
    cases oe with
    | none => simp [direct_loop]
    | some e => simp [direct_loop, ih]

theorem find_all_ok_open {rp : String} {w : World} {ps : List Package}
    (h : find_all_packages rp w = Except.ok ps) : w.openOk = true := by
  by_contra hno
  have hfalse : w.openOk = false := by simpa using hno
  simp [find_all_packages, hfalse] at h

/-- C6 (amended): discovery fails fatally exactly when the repository
cannot be opened, submodule enumeration fails, the root listing cannot be
read, or an individual root entry fails to read; in every other state —
in particular whatever the readability of subdirectories below the root —
it returns a (possibly partial) result rather than an error. -/
theorem find_all_error_iff (rp : String) (w : World) :
    (∃ e, find_all_packages rp w = Except.error e) ↔
      w.openOk = false ∨ w.submodules = none ∨ w.rootRead = none ∨
        ∃ es, w.rootRead = some es ∧ none ∈ es := by
  by_cases ho : w.openOk = true
  · cases hs : w.submodules with
    | none =>
      simp [find_all_packages, find_submodule_packages, ho, hs]
    | some subs =>
      cases hr : w.rootRead with
      | none =>
        simp [find_all_packages, find_submodule_packages, find_direct_packages, ho, hs, hr]
      | some es =>
        by_cases hne : none ∈ es
        · rcases (direct_loop_error_iff rp es []).mpr hne with ⟨e, he⟩
          simp [find_all_packages, find_submodule_packages, find_direct_packages,
            ho, hs, hr, he, hne]
        · have hnerr : ¬ ∃ e, direct_loop rp es [] = Except.error e :=
            fun hex => hne ((direct_loop_error_iff rp es []).mp hex)
          cases hd : direct_loop rp es [] with
          | error e => exact absurd ⟨e, hd⟩ hnerr
          | ok l =>
            simp [find_all_packages, find_submodule_packages, find_direct_packages,
              ho, hs, hr, hd, hne]
  · have hof : w.openOk = false := by simpa using ho
    simp [find_all_packages, hof]

/-! ### Claim theorems -/

/-- C1 (amended): every successful change-detection result is sorted
lexicographically; on the diff path (explicit base ref, or implicit base
whose HEAD parent resolves) it is also duplicate-free. The full-rebuild
path returns one name per discovered package in name-sorted order, which
can repeat a name when discovery yields duplicate names. -/
theorem detect_changed_names_sorted {rp : String} {w : World} {b : Option String}
    {l : List String} (h : detect_changed_packages rp w b = Except.ok l) :
    l.Sorted nameLe ∧ ((b ≠ none ∨ ∃ o, get_head_parent w = Except.ok o) → l.Nodup) := by
  rcases detect_ok_cases h with ⟨ps, hps, hcase⟩
  rcases hcase with ⟨hb, hnopar, hl⟩ | ⟨deltas, hl⟩
  · subst hl
    constructor
    · exact sorted_names_of_sorted (find_all_packages_sorted hps)
    · rintro (hbne | ⟨o, ho⟩)
      · exact absurd hb hbne
      · exact absurd ho (hnopar o)
  · subst hl
    exact ⟨(changed_sorted_nodup ps deltas).1, fun _ => (changed_sorted_nodup ps deltas).2⟩

/-- C1 counterexample: with two discovered packages both named `foo`, the
full-rebuild path returns a sorted list with a duplicate name, so the
returned sequence is not deduplicated on every return path. -/
theorem detect_full_rebuild_duplicate :
    detect_changed_packages "/repo" dupNameWorld none = Except.ok ["foo", "foo"] ∧
      ¬ (["foo", "foo"] : List String).Nodup := by
  constructor
  · rfl
  · decide

/-- C1 witness: the amended theorem applied to a concrete diff run. -/
theorem detect_changed_names_sorted_witness :
    (["bar", "foo"] : List String).Sorted nameLe ∧
      (((none : Option String) ≠ none ∨ ∃ o, get_head_parent renameWorld = Except.ok o) →
        (["bar", "foo"] : List String).Nodup) :=
  detect_changed_names_sorted
    (show detect_changed_packages "/repo" renameWorld none = Except.ok ["bar", "foo"] from rfl)

/-- C2: with no explicit base ref and an unresolvable HEAD parent, change
detection returns exactly one name per package discovered on the current
tree. -/
theorem detect_no_parent_full_set {rp : String} {w : World} {ps : List Package} {e : SysError}
    (hall : find_all_packages rp w = Except.ok ps)
    (hpar : get_head_parent w = Except.error e) :
    detect_changed_packages rp w none = Except.ok (ps.map (fun p => p.name)) := by
  have ho : w.openOk = true := find_all_ok_open hall
  simp [detect_changed_packages, ho, hall, hpar]

/-- C2 witness: a root-commit repository with one package returns that
package name. -/
theorem detect_no_parent_full_set_witness :
    detect_changed_packages "/repo" rootCommitWorld none =
      Except.ok (([mkChildPackage "/repo" "bar"]).map (fun p => p.name)) :=
  detect_no_parent_full_set
    (show find_all_packages "/repo" rootCommitWorld = Except.ok [mkChildPackage "/repo" "bar"]
      from rfl)
    (show get_head_parent rootCommitWorld = Except.error SysError.noParent from rfl)

/-- C3: both sides of a delta are collected, so a rename whose old side is
first-owned by A and whose new side is first-owned by B puts both names in
the result. -/
theorem rename_attributes_both {w : World} {base head : String} {packages : List Package}
    {l : List String} {deltas : List Delta} {d : Delta} {po pn : String} {A B : Package}
    (hres : find_changed_packages_between_commits w base head packages = Except.ok l)
    (hdiff : w.diffTrees base head = some deltas)
    (hd : d ∈ deltas) (ho : d.oldFile = some po) (hn : d.newFile = some pn)
    (hA : firstOwner packages po = some A) (hB : firstOwner packages pn = some B) :
    A.name ∈ l ∧ B.name ∈ l := by
  rcases find_changed_ok hres with ⟨deltas2, hdiff2, hl⟩
  rw [hdiff] at hdiff2
  injection hdiff2 with hdeq
  subst hdeq
  subst hl
  have hpo : po ∈ candidatePaths d := by simp [candidatePaths, ho, hn]
  have hpn : pn ∈ candidatePaths d := by simp [candidatePaths, ho, hn]
  constructor
  · exact (List.mem_insertionSort nameLe).mpr (mem_collectDeltas.mpr ⟨d, hd, po, hpo, A, hA, rfl⟩)
  · exact (List.mem_insertionSort nameLe).mpr (mem_collectDeltas.mpr ⟨d, hd, pn, hpn, B, hB, rfl⟩)

/-- C3 witness: a file renamed from `bar/a.c` to `foo/a.c` puts both
`bar` and `foo` in the changed set. -/
theorem rename_attributes_both_witness :
    (mkChildPackage "/repo" "bar").name ∈ (["bar", "foo"] : List String) ∧
      (mkChildPackage "/repo" "foo").name ∈ (["bar", "foo"] : List String) :=
  rename_attributes_both
    (show find_changed_packages_between_commits renameWorld "p0" "h"
        [mkChildPackage "/repo" "bar", mkChildPackage "/repo" "foo"] =
      Except.ok ["bar", "foo"] from rfl)
    (show renameWorld.diffTrees "p0" "h" = some [⟨some "foo/a.c", some "bar/a.c"⟩] from rfl)
    (List.mem_cons_self _ _) rfl rfl rfl rfl

/-- C4: the names in the result are exactly the names of first owners of
candidate paths, where the first owner (the package at which the scan
stops) is an owning package, and on a name-sorted package list it carries
the lexicographically least name among all owners. -/
theorem ownership_first_match {w : World} {base head : String} {packages : List Package}
    {deltas : List Delta} {l : List String}
    (hres : find_changed_packages_between_commits w base head packages = Except.ok l)
    (hdiff : w.diffTrees base head = some deltas)
    (hsorted : packages.Pairwise pkgLe) :
    (∀ n, n ∈ l ↔ ∃ d ∈ deltas, ∃ p ∈ candidatePaths d, ∃ pkg,
        firstOwner packages p = some pkg ∧ pkg.name = n) ∧
      ∀ p pkg, firstOwner packages p = some pkg →
        strStartsWith p pkg.path = true ∧ pkg ∈ packages ∧
          ∀ q ∈ packages, strStartsWith p q.path = true → nameLe pkg.name q.name := by
  rcases find_changed_ok hres with ⟨deltas2, hdiff2, hl⟩
  rw [hdiff] at hdiff2
  injection hdiff2 with hdeq
  subst hdeq
  subst hl
  constructor
  · intro n
    rw [List.mem_insertionSort nameLe, mem_collectDeltas]
  · intro p pkg hfo
    rcases firstOwner_owns hfo with ⟨hp1, hp2⟩
    exact ⟨hp1, hp2, firstOwner_min_name hsorted hfo⟩

/-- C4 witness: with nested package paths `pkgs` (name `a`) and `pkgs/x`
(name `b`), a path below both is attributed to the lexicographically first
owner `a` only. -/
theorem ownership_first_match_witness :
    (∀ n, n ∈ (["a"] : List String) ↔ ∃ d ∈ [(⟨some "pkgs/x/f.c", none⟩ : Delta)],
        ∃ p ∈ candidatePaths d, ∃ pkg, firstOwner tiePackages p = some pkg ∧ pkg.name = n) ∧
      ∀ p pkg, firstOwner tiePackages p = some pkg →
        strStartsWith p pkg.path = true ∧ pkg ∈ tiePackages ∧
          ∀ q ∈ tiePackages, strStartsWith p q.path = true → nameLe pkg.name q.name :=
  ownership_first_match
    (show find_changed_packages_between_commits tieWorld "p0" "h" tiePackages =
      Except.ok ["a"] from rfl)
    (show tieWorld.diffTrees "p0" "h" = some [⟨some "pkgs/x/f.c", none⟩] from rfl)
    (by decide)

/-- C5: the direct-directory walk never examines anything below two
directory levels — emptying every third-level directory leaves the result
unchanged, so a recipe file inside a third-level directory is never found
— and it emits exactly what the spec describes: a direct child with a
recipe, otherwise each non-submodule grandchild with a recipe. -/
theorem find_direct_two_levels {rp : String} {es : List Entry} {l : List Package}
    (h : find_direct_packages rp (rootOf es) = Except.ok l) :
    find_direct_packages rp (rootOf (es.map (pruneEntry 2))) = Except.ok l ∧
      ∀ p, p ∈ l ↔ specDirectPackage rp es p := by
  rw [find_direct_rootOf] at h
  injection h with hl
  subst hl
  constructor
  · rw [find_direct_rootOf, List.flatMap_map]
    simp only [processTopEntry_prune]
  · intro p
    exact mem_find_direct

/-- C5 witness: on a tree whose only recipe is three directory levels
deep, discovery finds nothing, before and after pruning the third level. -/
theorem find_direct_two_levels_witness :
    find_direct_packages "/repo" (rootOf (deepFs.map (pruneEntry 2))) = Except.ok [] ∧
      ∀ p, p ∈ ([] : List Package) ↔ specDirectPackage "/repo" deepFs p :=
  find_direct_two_levels
    (show find_direct_packages "/repo" (rootOf deepFs) = Except.ok [] from rfl)

/-- C6 counterexample: the repository opens, yet discovery fails fatally
because the root listing is unreadable — so open failure is not the only
fatal condition. -/
theorem discovery_error_beyond_open :
    find_all_packages "/repo" rootUnreadableWorld = Except.error SysError.readDirFailed ∧
      rootUnreadableWorld.openOk = true := ⟨rfl, rfl⟩

/-- C7 counterexample: with an implicit base, a HEAD read/peel failure
does not fail the call with a commit-resolution error; the call succeeds
on the full-rebuild path. -/
theorem head_failure_implicit_ok :
    detect_changed_packages "/repo" headFailWorld none = Except.ok [] ∧
      headFailWorld.headCommit = none := ⟨rfl, rfl⟩

/-- C7 (amended): with an explicit base ref, a HEAD read/peel failure, or
a failure to peel the resolved base object, is fatal (some error, no
partial result); with an implicit base, a HEAD read/peel failure during
parent resolution instead yields the full-rebuild success returning every
discovered package name. -/
theorem head_peel_failure_behavior {rp r : String} {w : World} {ps : List Package}
    (hall : find_all_packages rp w = Except.ok ps) :
    (w.headCommit = none → ∃ e, detect_changed_packages rp w (some r) = Except.error e) ∧
      (∀ o, w.revparse r = some o → w.peelObj o = none →
        ∃ e, detect_changed_packages rp w (some r) = Except.error e) ∧
      (w.headCommit = none →
        detect_changed_packages rp w none = Except.ok (ps.map (fun p => p.name))) := by
  have ho : w.openOk = true := find_all_ok_open hall
  refine ⟨?_, ?_, ?_⟩
  · intro hh
    cases hrv : w.revparse r with
    | none =>
      exact ⟨SysError.revparseFailed,
        by simp [detect_changed_packages, detect_with_base, ho, hall, hrv]⟩
    | some o =>
      cases hpl : w.peelObj o with
      | none =>
        exact ⟨SysError.peelFailed,
          by simp [detect_changed_packages, detect_with_base, ho, hall, hrv, hpl]⟩
      | some c =>
        exact ⟨SysError.headFailed,
          by simp [detect_changed_packages, detect_with_base, ho, hall, hrv, hpl, hh]⟩
  · intro o hrv hpl
    exact ⟨SysError.peelFailed,
      by simp [detect_changed_packages, detect_with_base, ho, hall, hrv, hpl]⟩
  · intro hh
    have hpar : get_head_parent w = Except.error SysError.headFailed := by
      simp [get_head_parent, hh]
    simp [detect_changed_packages, ho, hall, hpar]

/-- C7 witness: the amended behavior at a concrete world whose HEAD
cannot be read but whose revparse succeeds. -/
theorem head_peel_failure_behavior_witness :
    (peelFailWorld.headCommit = none →
        ∃ e, detect_changed_packages "/repo" peelFailWorld (some "x") = Except.error e) ∧
      (∀ o, peelFailWorld.revparse "x" = some o → peelFailWorld.peelObj o = none →
        ∃ e, detect_changed_packages "/repo" peelFailWorld (some "x") = Except.error e) ∧
      (peelFailWorld.headCommit = none →
        detect_changed_packages "/repo" peelFailWorld none =
          Except.ok (([] : List Package).map (fun p => p.name))) :=
  head_peel_failure_behavior
    (show find_all_packages "/repo" peelFailWorld = Except.ok [] from rfl)

/-- C8 (amended): for every `key=value` line whose trimmed value is not a
lone quote character, fallback extraction returns the whitespace-trimmed
value with exactly one surrounding matching quote pair (both double or
both single quotes) stripped when present, and unchanged otherwise. -/
theorem extract_value_spec (pre rest : List Char)
    (h1 : trimChars rest ≠ [dquote]) (h2 : trimChars rest ≠ [squote]) :
    extract_value (pre ++ rest) pre = some (spec_unquote (trimChars rest)) := by
  simp only [extract_value, spec_unquote, List.drop_left]
  by_cases hq : (trimChars rest).head? = some dquote ∧ (trimChars rest).getLast? = some dquote ∨
      (trimChars rest).head? = some squote ∧ (trimChars rest).getLast? = some squote
  · rw [if_pos hq]
    by_cases hl : 2 ≤ (trimChars rest).length
    · rw [if_pos hl, if_pos ⟨hl, hq⟩]
    · exfalso
      have hlen1 : (trimChars rest).length = 1 := by
        have hne : trimChars rest ≠ [] := by
          intro hnil
          rcases hq with ⟨hh, _⟩ | ⟨hh, _⟩ <;> rw [hnil] at hh <;> cases hh
        have hpos : 0 < (trimChars rest).length := List.length_pos.mpr hne
        omega
      rcases List.length_eq_one.mp hlen1 with ⟨c, hc⟩
      rcases hq with ⟨hh, _⟩ | ⟨hh, _⟩
      · rw [hc] at hh
        injection hh with hch
        exact h1 (by rw [hc, hch])
      · rw [hc] at hh
        injection hh with hch
        exact h2 (by rw [hc, hch])
  · rw [if_neg hq, if_neg (fun hand => hq (And.right hand))]

/-- C8 witness: the two examples of the claim, `pkgver="1.2.3"` and
`pkgver=  1.2.3  `. -/
theorem extract_value_spec_witness :
    extract_value ("pkgver=".toList ++ ([dquote] ++ "1.2.3".toList ++ [dquote]))
        "pkgver=".toList =
      some (spec_unquote (trimChars ([dquote] ++ "1.2.3".toList ++ [dquote]))) ∧
      extract_value ("pkgver=".toList ++ "  1.2.3  ".toList) "pkgver=".toList =
        some (spec_unquote (trimChars "  1.2.3  ".toList)) :=
  ⟨extract_value_spec _ _ (by decide) (by decide),
   extract_value_spec _ _ (by decide) (by decide)⟩

/-- C8 counterexample: on a line of key `pkgver=` followed by one single
quote, the trimmed value is that lone quote; the claim promises the
trimmed value back, but the slice `value[1..0]` in the code is out of
range (modelled `none`). -/
theorem extract_value_lone_squote :
    extract_value ("pkgver=".toList ++ [squote]) "pkgver=".toList = none ∧
      spec_unquote (trimChars [squote]) = [squote] := by
  constructor
  · decide
  · decide

/-- C9 (code bug): on the line `pkgver="` the trimmed value is the single
character `"`, which starts and ends with a double quote, so the code
evaluates `value[1..value.len() - 1]` = `value[1..0]`, an out-of-range
slice that panics — extraction is not total. -/
theorem extract_value_lone_dquote_panics :
    extract_value ("pkgver=".toList ++ [dquote]) "pkgver=".toList = none := by decide

/-- C10: the hidden-name and fixed-exclusion filters constrain only direct
children of the root: a non-submodule grandchild with a recipe is emitted
whatever its name `gname` — including hidden or excluded names. -/
theorem grandchild_name_unfiltered {rp cname gname : String}
    {ccontents gcontents : List Entry} {gr : Bool} {es : List Entry} {l : List Package}
    (hres : find_direct_packages rp (rootOf es) = Except.ok l)
    (hc : Entry.dir cname ccontents true ∈ es)
    (h1 : hasEntry ccontents ".git" = false)
    (h2 : excludedName cname = false)
    (h3 : hasEntry ccontents "PKGBUILD" = false)
    (hg : Entry.dir gname gcontents gr ∈ ccontents)
    (h4 : hasEntry gcontents ".git" = false)
    (h5 : hasEntry gcontents "PKGBUILD" = true) :
    mkGrandchildPackage rp cname gname ∈ l := by
  rw [find_direct_rootOf] at hres
  injection hres with hl
  subst hl
  exact mem_find_direct.mpr ⟨Entry.dir cname ccontents true, hc, h1, h2,
    Or.inr ⟨h3, rfl, Entry.dir gname gcontents gr, hg, h4, h5, rfl⟩⟩

/-- C10 witness: a grandchild directory named `.hidden` holding a recipe
is discovered. -/
theorem grandchild_name_unfiltered_witness :
    mkGrandchildPackage "/repo" "pkgs" ".hidden" ∈
      [mkGrandchildPackage "/repo" "pkgs" ".hidden"] :=
  grandchild_name_unfiltered
    (show find_direct_packages "/repo" (rootOf hiddenFs) =
      Except.ok [mkGrandchildPackage "/repo" "pkgs" ".hidden"] from rfl)
    (show Entry.dir "pkgs" [Entry.dir ".hidden" [Entry.file "PKGBUILD"] true] true ∈ hiddenFs
      from List.mem_cons_self _ _)
    rfl rfl rfl
    (show Entry.dir ".hidden" [Entry.file "PKGBUILD"] true ∈
        [Entry.dir ".hidden" [Entry.file "PKGBUILD"] true]
      from List.mem_cons_self _ _)
    rfl rfl

/-- C6 witness: the amended characterization instantiated at the
root-unreadable world. -/
theorem find_all_error_iff_witness :
    (∃ e, find_all_packages "/repo" rootUnreadableWorld = Except.error e) ↔
      (rootUnreadableWorld.openOk = false ∨ rootUnreadableWorld.submodules = none ∨
        rootUnreadableWorld.rootRead = none ∨
        ∃ es, rootUnreadableWorld.rootRead = some es ∧ none ∈ es) :=
  find_all_error_iff "/repo" rootUnreadableWorld
